import Mathlib

/-!
Verification of the CmsModel interactive tree-editing engine.

The repository keeps its categories and content items in Python dicts keyed
by name.  We embed those dicts as association lists `List (κ × α)` with a
first-match lookup (`dlookup`), in-place-overwrite-or-append insertion
(`dinsert`, matching `d[k] = v`), and key removal (`eraseKey`, matching
`d.pop(k)`; keys are unique in a dict, so removing every occurrence agrees
with removing the single one).

Two data-model variants exist in the source and both are embedded:
* `Category`/`Article` from `models.py` (used by `tree_ui.py` / `tree_gui.py`):
  a category has `name`, `parent`, `sort_order_index`; an article has `name`,
  a list of category references and an `archived` flag.
* `Cms.Category`/`Cms.Content` from `CMS/cms/models.py` (used by the `cms`
  package): a category has `name` and `parent`; a content item has `name`,
  `content_type`, a single `category` reference and an `action`.
-/

set_option maxHeartbeats 1000000

namespace CmsModel

/-- First-match lookup in an association list, mirroring Python `d.get(k)` /
`d[k]`. -/
def dlookup {κ α : Type} [DecidableEq κ] (k : κ) : List (κ × α) → Option α
  | [] => none
  | (k', v) :: t => if k' = k then some v else dlookup k t

/-- Dict assignment `d[k] = v`: overwrite the entry in place if the key is
present, otherwise append it at the end (Python dicts preserve insertion
order and keep the original position on overwrite). -/
def dinsert {κ α : Type} [DecidableEq κ] (k : κ) (v : α) : List (κ × α) → List (κ × α)
  | [] => [(k, v)]
  | (k', v') :: t => if k' = k then (k, v) :: t else (k', v') :: dinsert k v t

/-- Dict removal `d.pop(k)`: drop the entry with key `k`.  Dicts have unique
keys, so dropping every occurrence coincides with removing the single one. -/
def eraseKey {κ α : Type} [DecidableEq κ] (k : κ) : List (κ × α) → List (κ × α)
  | [] => []
  | (k', v) :: t => if k' = k then eraseKey k t else (k', v) :: eraseKey k t

/-- Model of `models.py` `Category`: name, optional parent name, sibling order. -/
structure Category where
  name : String
  parent : Option String
  sort_order_index : Int
deriving DecidableEq, Repr

/-- Model of `models.py` `Article`: name, list of referenced category names,
archived flag. -/
structure Article where
  name : String
  categories : List String
  archived : Bool
deriving DecidableEq, Repr

/-- The category store: the `categories` dict of the editors. -/
abbrev Store := List (String × Category)

/-- The content index: the `contents` dict of the editors. -/
abbrev Contents := List (String × Article)

/-- Combined mutable state of a `TreeEditor` / `TreeGui`: the two dicts the
editors share and mutate. -/
structure EdState where
  cats : Store
  contents : Contents
deriving DecidableEq, Repr

namespace Cms

/-- Model of `CMS/cms/models.py` `Category`: name and optional parent only. -/
structure Category where
  name : String
  parent : Option String
deriving DecidableEq, Repr

/-- Model of `CMS/cms/models.py` `Content`: name, content type, single category
reference, action. -/
structure Content where
  name : String
  content_type : String
  category : String
  action : String
deriving DecidableEq, Repr

end Cms

/-- The `cms` package category store. -/
abbrev CmsStore := List (String × Cms.Category)

/-- The `cms` package contents dict. -/
abbrev CmsContents := List (String × Cms.Content)

/-! ## Rename (`tree_ui.py _rename_node` / `_enter`, `tree_gui.py _on_rename`) -/

/-- One step of the parent-rewrite loop
`for c in categories.values(): if c.parent == old_name: c.parent = new_name`. -/
def rpOne (old new : String) (c : Category) : Category :=
  if c.parent = some old then { c with parent := some new } else c

/-- The whole parent-rewrite loop over the store. -/
def rewriteParents (old new : String) (s : Store) : Store :=
  s.map (fun p => (p.1, rpOne old new p.2))

/-- Category-store part of a rename, shared verbatim by
`TreeEditor._rename_node`, `TreeEditor._enter` (rename branch) and
`TreeGui._on_rename`:
`cat = categories.pop(old)`; `cat.name = new`; `categories[new] = cat`;
then the parent-rewrite loop.  The selected node always exists, so the
`pop` cannot fail; a missing `old` is modelled as leaving the store
unchanged and no theorem relies on that branch. -/
def renameStore (s : Store) (old new : String) : Store :=
  match dlookup old s with
  | none => s
  | some c => rewriteParents old new (dinsert new { c with name := new } (eraseKey old s))

/-- Reference rewrite performed by `TreeGui._on_rename`:
`art.categories = [new_name if c == name else c for c in art.categories]`
for every article. -/
def rewriteRefs (old new : String) (cs : Contents) : Contents :=
  cs.map (fun p =>
    (p.1, { p.2 with categories := p.2.categories.map (fun c => if c = old then new else c) }))

/-- Model of `TreeGui._on_rename` (Qt variant): guarded by
`if ok and new_name and new_name != name`; renames the category store and
rewrites every article's category references. -/
def renameGui (st : EdState) (old new : String) : EdState :=
  if new ≠ "" ∧ new ≠ old then
    { cats := renameStore st.cats old new, contents := rewriteRefs old new st.contents }
  else st

/-- Model of `TreeEditor._rename_node` / `_enter` rename branch (prompt_toolkit
variant): same guard and category-store update, but the contents dict is
never touched. -/
def renameTui (st : EdState) (old new : String) : EdState :=
  if new ≠ "" ∧ new ≠ old then
    { st with cats := renameStore st.cats old new }
  else st

/-- Names of content items linked to a category (spec 4.2 `linkedTo`),
computed from the embedded contents dict. -/
def linkedTo (cs : Contents) (cat : String) : List String :=
  (cs.filter (fun p => cat ∈ p.2.categories)).map (fun p => p.1)

/-! ## Delete (`tree_gui.py _on_delete`, `cms/tree_gui.py _on_delete`) -/

/-- One step of the child-promotion loop
`for c in categories.values(): if c.parent == name: c.parent = None`. -/
def promoteOne (name : String) (c : Category) : Category :=
  if c.parent = some name then { c with parent := none } else c

/-- Model of `TreeGui._on_delete` (Qt variant): if the name is a category, pop it,
promote its children to root, and drop the name from every article's
category list. -/
def deleteGui (st : EdState) (name : String) : EdState :=
  if (dlookup name st.cats).isSome then
    { cats := (eraseKey name st.cats).map (fun p => (p.1, promoteOne name p.2)),
      contents := st.contents.map
        (fun p => (p.1, { p.2 with categories := p.2.categories.filter (fun c => c ≠ name) })) }
  else st

/-- One step of the `cms` child-promotion loop. -/
def promoteOneCms (name : String) (c : Cms.Category) : Cms.Category :=
  if c.parent = some name then { c with parent := none } else c

/-- Model of `cms/tree_gui.py TreeGui._on_delete` (Tkinter variant): pops the
category and promotes its children; the contents dict is left untouched
(only the listbox widget is cleared). -/
def deleteTk (cats : CmsStore) (contents : CmsContents) (name : String) :
    CmsStore × CmsContents :=
  if (dlookup name cats).isSome then
    ((eraseKey name cats).map (fun p => (p.1, promoteOneCms name p.2)), contents)
  else (cats, contents)

/-! ## Reparent (`tree_ui.py _change_parent`, `cms/data.py change_parent`) -/

/-- Assignment `categories[name].parent = new_parent`: the store update both reparent
code paths perform once a target is chosen. -/
def setParent (s : Store) (name : String) (par : Option String) : Store :=
  s.map (fun p => if p.1 = name then (p.1, { p.2 with parent := par }) else p)

/-- Model of `cms/data.py interactive_tree_edit.change_parent`: reads any string from
the prompt (blank means `None`) and assigns it as the parent with no
validation of any kind. -/
def change_parent (s : CmsStore) (name : String) (par : Option String) : CmsStore :=
  s.map (fun p => if p.1 = name then (p.1, { p.2 with parent := par }) else p)

/-- Parent pointer of a node in an abstract parent assignment.  `Reaches pf a b`
holds when following parent links upward from `a` arrives at `b` in one or
more steps, i.e. `b` is a (proper) ancestor of `a` — equivalently `a` is a
descendant of `b`. -/
inductive Reaches (pf : String → Option String) : String → String → Prop
  | step {a b : String} : pf a = some b → Reaches pf a b
  | trans {a b c : String} : pf a = some b → Reaches pf b c → Reaches pf a c

/-- Parent lookup of the `models.py` store. -/
def parentOf (s : Store) (n : String) : Option String :=
  (dlookup n s).bind (fun c => c.parent)

/-- Parent lookup of the `cms` store. -/
def parentOfCms (s : CmsStore) (n : String) : Option String :=
  (dlookup n s).bind (fun c => c.parent)

/-- The parent assignment after `categories[x].parent = y`, as a function:
`x` now points at `y`, everything else is unchanged. -/
def updFn (pf : String → Option String) (x y : String) : String → Option String :=
  fun n => if n = x then some y else pf n

/-! ## Sibling reorder and drag (`cms/tree_ui.py`) -/

/-- Python `list.index(a)`: position of the first occurrence, `None` when the
`ValueError` is raised. -/
def idxOf (a : String) : List String → Option Nat
  | [] => none
  | h :: t => if h = a then some 0 else (idxOf a t).map (fun i => i + 1)

/-- Python `list.insert(n, a)`: insert before position `n`, appending when
`n` is at or past the end. -/
def insertAt (n : Nat) (a : String) : List String → List String
  | [] => [a]
  | h :: t =>
    match n with
    | 0 => a :: h :: t
    | m + 1 => h :: insertAt m a t

/-- Model of the `TreeEditor._reorder_siblings` core (`cms/tree_ui.py`): look up the two
names in the parent's ordered child list; on a `ValueError` return
unchanged; otherwise `item = lst.pop(fi)` (which is the dragged name),
`if ti > fi: ti -= 1`, `lst.insert(ti, item)`. -/
def reorderList (lst : List String) (fromN toN : String) : List String :=
  match idxOf fromN lst, idxOf toN lst with
  | some fi, some ti => insertAt (if fi < ti then ti - 1 else ti) fromN (lst.eraseIdx fi)
  | _, _ => lst

/-- State touched by the drag protocol of `cms/tree_ui.py`: the categories
dict and the `order` mapping of parent → ordered child names. -/
structure CmsEditor where
  categories : CmsStore
  order : List (Option String × List String)
deriving DecidableEq, Repr

/-- Model of the `TreeEditor._mouse_handler` drag-release branch (`cms/tree_ui.py`):
if the release row equals the drag row nothing happens; otherwise the two
rows' parents are compared and `_reorder_siblings` runs only when they are
equal; a cross-parent release is discarded.  `_reorder_siblings` mutates
`order[parent]` in place, so when the parent key is absent (`order.get`
returned a fresh list) the mutation is lost. -/
def dragEnd (st : CmsEditor) (sameRow : Bool) (pFrom pTo : Option String)
    (fromN toN : String) : CmsEditor :=
  if sameRow then st
  else if pFrom = pTo then
    match dlookup pFrom st.order with
    | none => st
    | some lst => { st with order := dinsert pFrom (reorderList lst fromN toN) st.order }
  else st

/-! ## Browsing-mode navigation (`tree_ui.py` up/down, `cms/data.py` up/down) -/

/-- Model of `tree_ui.py _up` in Browsing mode (no edit, no menu):
`if self.selected_index > 0: self.selected_index -= 1`. -/
def upTui (sel : Nat) : Nat :=
  if sel > 0 then sel - 1 else sel

/-- Model of `tree_ui.py _down` in Browsing mode:
`if self.selected_index < len(self._lines) - 1: self.selected_index += 1`
(the comparison is over Python ints; for `total = 0` the bound is `-1` and
the branch is never taken, matching truncated subtraction here). -/
def downTui (sel total : Nat) : Nat :=
  if sel + 1 < total then sel + 1 else sel

/-- Model of the `cms/data.py` up binding: `if tree: index = (index - 1) % len(tree)`.
Python `%` with a positive modulus returns a non-negative remainder,
matching `Int.emod`. -/
def upCms (index : Int) (total : Nat) : Int :=
  if total ≠ 0 then (index - 1) % (total : Int) else index

/-- Model of the `cms/data.py` down binding: `if tree: index = (index + 1) % len(tree)`. -/
def downCms (index : Int) (total : Nat) : Int :=
  if total ≠ 0 then (index + 1) % (total : Int) else index

/-! ## Content-edit commit (`tree_ui.py _enter`, `tree_gui.py _on_content_edit`) -/

/-- Python `s.split(',')` on the character list: always at least one field,
split at every comma. -/
def splitOnComma (cs : List Char) : List (List Char) :=
  cs.foldr
    (fun c acc =>
      if c = ',' then [] :: acc
      else
        match acc with
        | [] => [[c]]
        | h :: t => (c :: h) :: t)
    [[]]

/-- Python `s.strip()`: drop whitespace from both ends. -/
def trimChars (cs : List Char) : List Char :=
  ((cs.dropWhile Char.isWhitespace).reverse.dropWhile Char.isWhitespace).reverse

/-- Model of `[c.strip() for c in cats_str.split(',') if c.strip()]`. -/
def parseCats (s : String) : List String :=
  ((splitOnComma s.data).map (fun cs => String.mk (trimChars cs))).filter (fun c => c ≠ "")

/-- Python `s.lower() == 'true'`. -/
def lowerIsTrue (s : String) : Bool :=
  String.mk (s.data.map Char.toLower) = "true"

/-- Model of the `TreeEditor._enter` content branch (`tree_ui.py`): read the three buffer
fields, parse the category list, pop the old key when the name changed and
store the new `Article` — with no validation of the listed categories
against the category store. -/
def commitContentTui (contents : Contents) (old name catsStr archStr : String) : Contents :=
  let cs := if name ≠ old then eraseKey old contents else contents
  dinsert name ⟨name, parseCats catsStr, lowerIsTrue archStr⟩ cs

/-- Model of `TreeGui._on_content_edit` (`tree_gui.py`): empty name cancels; if any
parsed category is not a key of the category store the whole commit is
abandoned by an early `return` (`none`, contents untouched, no error
reported); otherwise the old key is popped when renamed and the new
`Article` stored. -/
def commitContentGui (cats : Store) (contents : Contents)
    (old name catsStr archStr : String) : Option Contents :=
  if name = "" then none
  else
    let parsed := parseCats catsStr
    if parsed.all (fun c => (dlookup c cats).isSome) then
      let cs := if name ≠ old then eraseKey old contents else contents
      some (dinsert name ⟨name, parsed, lowerIsTrue archStr⟩ cs)
    else none

/-! ## Tree flattening (`tree_ui.py _build_tree` / `_visible_lines`) -/

/-- Keys of the categories dict (`nodes` in `_build_tree`). -/
def keys (s : Store) : List String := s.map (fun p => p.1)

/-- Where `_build_tree` attaches a node: under `cat.parent` when that is
truthy (non-`None`, non-empty) and present in `nodes`, otherwise under the
synthetic root (modelled as `none`). -/
def attachTo (s : Store) (c : Category) : Option String :=
  match c.parent with
  | none => none
  | some p => if p ≠ "" ∧ p ∈ keys s then some p else none

/-- Stable insertion of a name into a list sorted by `sort_order_index`. -/
def insertByOrder (key : String → Int) (n : String) : List String → List String
  | [] => [n]
  | m :: t => if key n ≤ key m then n :: m :: t else m :: insertByOrder key n t

/-- Sort-order key of a name (0 for the synthetic root / unknown names,
matching `n.category.sort_order_index if n.category else 0`). -/
def orderKey (s : Store) (n : String) : Int :=
  match dlookup n s with
  | some c => c.sort_order_index
  | none => 0

/-- Stable sort by `sort_order_index`, the model of
`node.children.sort(key=lambda n: ...)` (Python's sort is stable, and all
stable sorts by the same key agree). -/
def sortByOrder (s : Store) (ns : List String) : List String :=
  ns.foldr (insertByOrder (orderKey s)) []

/-- Ordered children of a node after `_build_tree`: the categories attached
to it, in dict insertion order, stably sorted by `sort_order_index`. -/
def childrenOf (s : Store) (parent : Option String) : List String :=
  sortByOrder s ((s.filter (fun p => attachTo s p.2 = parent)).map (fun p => p.1))

/-- Model of `_visible_lines`: pre-order rows `(name, text)` below one parent.  The
icon is `[-]`/`[+]` when the node has children, blanks otherwise, and a
node's children are emitted only when it is expanded (`exp` is the set of
expanded names; the synthetic root is always expanded).  The recursion is
fuel-bounded; the built tree is a forest (every node is appended to exactly
one children list), so any fuel beyond the store size is never exhausted. -/
def flattenAux (s : Store) (exp : List String) : Nat → Option String → String → List (String × String)
  | 0, _, _ => []
  | fuel + 1, parent, pre =>
    (childrenOf s parent).flatMap (fun name =>
      let kids := childrenOf s (some name)
      let icon := if kids ≠ [] then (if name ∈ exp then "[-]" else "[+]") else "   "
      (name, pre ++ icon ++ " " ++ name) ::
        (if name ∈ exp then flattenAux s exp fuel (some name) (pre ++ "    ") else []))

/-- Model of `flatten(store, expandedSet)`: the visible rows of the whole tree,
starting from the always-expanded synthetic root with `show_node=False`. -/
def flatten (s : Store) (exp : List String) : List (String × String) :=
  flattenAux s exp (s.length + 1) none ""

/-! ## Seed data (`data.py seed_data`) -/

/-- The 15 seed categories of `data.py`, in source order. -/
def seedCategories : Store :=
  [("Home", ⟨"Home", none, 0⟩),
   ("About", ⟨"About", none, 1⟩),
   ("Mass Times", ⟨"Mass Times", none, 2⟩),
   ("Sacraments", ⟨"Sacraments", none, 3⟩),
   ("Ministries", ⟨"Ministries", none, 4⟩),
   ("Downloads", ⟨"Downloads", none, 5⟩),
   ("Staff", ⟨"Staff", some "About", 0⟩),
   ("History", ⟨"History", some "About", 1⟩),
   ("Contact", ⟨"Contact", some "About", 2⟩),
   ("Baptism", ⟨"Baptism", some "Sacraments", 0⟩),
   ("Confirmation", ⟨"Confirmation", some "Sacraments", 1⟩),
   ("Marriage", ⟨"Marriage", some "Sacraments", 2⟩),
   ("Youth Ministry", ⟨"Youth Ministry", some "Ministries", 0⟩),
   ("Choir", ⟨"Choir", some "Ministries", 1⟩),
   ("High School", ⟨"High School", some "Youth Ministry", 0⟩)]

/-- The 5 seed content items of `data.py`. -/
def seedContents : Contents :=
  [("office_hours", ⟨"office_hours", ["Home"], false⟩),
   ("welcome", ⟨"welcome", ["Home"], false⟩),
   ("bulletin", ⟨"bulletin", ["Downloads"], false⟩),
   ("youth_banner", ⟨"youth_banner", ["Youth Ministry"], false⟩),
   ("old_news", ⟨"old_news", ["Home"], true⟩)]

/-- Python `dict.update(other)`: insert the entries of `other` in order. -/
def dictUpdate {κ α : Type} [DecidableEq κ] (d : List (κ × α)) (other : List (κ × α)) :
    List (κ × α) :=
  other.foldl (fun acc p => dinsert p.1 p.2 acc) d

/-- Model of `data.py seed_data`: `categories.clear(); contents.clear()` empties both
dicts regardless of their prior contents, then `update` inserts the fixed
sample entries. -/
def seed_data (categories : Store) (contents : Contents) : Store × Contents :=
  -- categories.clear(); contents.clear()
  let categories : Store := []
  let contents : Contents := []
  -- categories.update(seed_categories); contents.update(seed_contents)
  (dictUpdate categories seedCategories, dictUpdate contents seedContents)

/-! ## Association-list lemmas -/

@[simp] theorem dlookup_nil {κ α : Type} [DecidableEq κ] (k : κ) :
    dlookup k ([] : List (κ × α)) = none := rfl

@[simp] theorem dlookup_cons {κ α : Type} [DecidableEq κ] (k k' : κ) (v : α) (t : List (κ × α)) :
    dlookup k ((k', v) :: t) = if k' = k then some v else dlookup k t := rfl

theorem dlookup_dinsert_self {κ α : Type} [DecidableEq κ] (k : κ) (v : α) (l : List (κ × α)) :
    dlookup k (dinsert k v l) = some v := by
  induction l with
  | nil => simp [dinsert]
  | cons p t ih =>
    obtain ⟨k', v'⟩ := p
    by_cases h : k' = k <;> simp [dinsert, h, ih]

theorem dlookup_dinsert_ne {κ α : Type} [DecidableEq κ] (k k' : κ) (v : α) (l : List (κ × α))
    (h : k ≠ k') : dlookup k' (dinsert k v l) = dlookup k' l := by
  induction l with
  | nil => simp [dinsert, h]
  | cons p t ih =>
    obtain ⟨k₀, v₀⟩ := p
    by_cases h₀ : k₀ = k
    · subst h₀; simp [dinsert, h]
    · simp [dinsert, h₀]
      by_cases h₁ : k₀ = k' <;> simp [h₁, ih]

theorem dlookup_eraseKey_self {κ α : Type} [DecidableEq κ] (k : κ) (l : List (κ × α)) :
    dlookup k (eraseKey k l) = none := by
  induction l with
  | nil => simp [eraseKey]
  | cons p t ih =>
    obtain ⟨k', v'⟩ := p
    by_cases h : k' = k <;> simp [eraseKey, h, ih]

theorem dlookup_eraseKey_ne {κ α : Type} [DecidableEq κ] (k k' : κ) (l : List (κ × α))
    (h : k ≠ k') : dlookup k' (eraseKey k l) = dlookup k' l := by
  induction l with
  | nil => simp [eraseKey]
  | cons p t ih =>
    obtain ⟨k₀, v₀⟩ := p
    by_cases h₀ : k₀ = k
    · have h₁ : ¬ k₀ = k' := fun hx => h (h₀.symm.trans hx)
      simp [eraseKey, h₀, h₁, ih, h]
    · by_cases h₁ : k₀ = k' <;> simp [eraseKey, h₀, h₁, ih, Ne.symm h]

theorem dlookup_some_mem {κ α : Type} [DecidableEq κ] {k : κ} {v : α} {l : List (κ × α)}
    (h : dlookup k l = some v) : (k, v) ∈ l := by
  induction l with
  | nil => simp at h
  | cons p t ih =>
    obtain ⟨k', v'⟩ := p
    by_cases h' : k' = k
    · subst h'
      simp at h
      simp [h]
    · simp [h'] at h
      exact List.mem_cons_of_mem _ (ih h)

theorem dlookup_map_snd {κ α β : Type} [DecidableEq κ] (f : α → β) (k : κ) (l : List (κ × α)) :
    dlookup k (l.map (fun p => (p.1, f p.2))) = (dlookup k l).map f := by
  induction l with
  | nil => rfl
  | cons p t ih =>
    obtain ⟨k', v⟩ := p
    by_cases h : k' = k <;> simp [h, ih]

theorem dlookup_rewriteParents (old new k : String) (s : Store) :
    dlookup k (rewriteParents old new s) = (dlookup k s).map (rpOne old new) :=
  dlookup_map_snd _ _ _

/-! ## C10 — seed data -/

/-- C10: `seed_data` first clears both dictionaries and then inserts the
fixed sample set; for any prior contents the result is the same, holds
exactly the 15 seed categories and 5 seed content items, and running
`seed_data` twice yields the same state as running it once. -/
theorem seed_data_resets_and_idempotent (cats cats' : Store) (conts conts' : Contents) :
    seed_data cats conts = seed_data cats' conts' ∧
    seed_data cats conts = (seedCategories, seedContents) ∧
    (seed_data cats conts).1.length = 15 ∧
    (seed_data cats conts).2.length = 5 ∧
    seed_data (seed_data cats conts).1 (seed_data cats conts).2 = seed_data cats conts := by
  have h : seed_data cats conts = seed_data [] [] := rfl
  refine ⟨rfl, ?_, ?_, ?_, rfl⟩ <;> rw [h] <;> decide

/-! ## C2 — rename onto an existing name -/

/-- C2 counterexample: with categories `A` and `B`, `rename("A", "B")` in
`TreeGui._on_rename` does not fail with `DuplicateName`: it silently
replaces the original `B` entry with the renamed `A` (keeping `A`'s
`sort_order_index 0`) and changes the store. -/
theorem rename_to_existing_name_overwrites :
    (renameGui ⟨[("A", ⟨"A", none, 0⟩), ("B", ⟨"B", none, 1⟩)], []⟩ "A" "B").cats
      = [("B", ⟨"B", none, 0⟩)] ∧
    renameGui ⟨[("A", ⟨"A", none, 0⟩), ("B", ⟨"B", none, 1⟩)], []⟩ "A" "B"
      ≠ ⟨[("A", ⟨"A", none, 0⟩), ("B", ⟨"B", none, 1⟩)], []⟩ := by
  decide

/-- C2 amended: rename to an existing different name is not rejected and is
not a no-op — the old key disappears and `new` is rebound to the renamed
entry, silently destroying the category previously stored under `new`; no
error of any kind is produced (the operation is total). -/
theorem rename_duplicate_silently_overwrites (st : EdState) (old new : String)
    (cOld cNew : Category)
    (hOld : dlookup old st.cats = some cOld) (hNew : dlookup new st.cats = some cNew)
    (hne : new ≠ old) (hnil : new ≠ "") :
    dlookup old (renameGui st old new).cats = none ∧
    dlookup new (renameGui st old new).cats = some (rpOne old new { cOld with name := new }) := by
  have hguard : (new ≠ "" ∧ new ≠ old) := ⟨hnil, hne⟩
  simp only [renameGui, if_pos hguard]
  constructor
  · show dlookup old (renameStore st.cats old new) = none
    rw [renameStore, hOld, dlookup_rewriteParents,
      dlookup_dinsert_ne new old _ _ hne, dlookup_eraseKey_self]
    rfl
  · show dlookup new (renameStore st.cats old new) = some _
    rw [renameStore, hOld, dlookup_rewriteParents, dlookup_dinsert_self]
    rfl

/-- C2 witness: the amended theorem applied to the concrete two-category
store. -/
theorem rename_duplicate_silently_overwrites_witness :
    dlookup "A" (renameGui ⟨[("A", ⟨"A", none, 0⟩), ("B", ⟨"B", none, 1⟩)], []⟩ "A" "B").cats
      = none ∧
    dlookup "B" (renameGui ⟨[("A", ⟨"A", none, 0⟩), ("B", ⟨"B", none, 1⟩)], []⟩ "A" "B").cats
      = some (rpOne "A" "B" { Category.mk "A" none 0 with name := "B" }) :=
  rename_duplicate_silently_overwrites
    ⟨[("A", ⟨"A", none, 0⟩), ("B", ⟨"B", none, 1⟩)], []⟩ "A" "B"
    ⟨"A", none, 0⟩ ⟨"B", none, 1⟩ (by decide) (by decide) (by decide) (by decide)

/-! ## C3 — content references after a rename -/

theorem new_mem_map_rewrite {l : List String} {old new : String}
    (hfresh : new ∉ l) :
    (new ∈ l.map (fun c => if c = old then new else c)) ↔ old ∈ l := by
  induction l with
  | nil => simp
  | cons a t ih =>
    have ha : a ≠ new := fun h => hfresh (h ▸ List.mem_cons_self a t)
    have ht : new ∉ t := fun h => hfresh (List.mem_cons_of_mem _ h)
    by_cases h : a = old
    · simp [h, ih ht]
    · simp [h, ih ht, Ne.symm ha, ha, Ne.symm h]

theorem old_not_mem_map_rewrite {l : List String} {old new : String} (hne : new ≠ old) :
    old ∉ l.map (fun c => if c = old then new else c) := by
  induction l with
  | nil => simp
  | cons a t ih =>
    by_cases h : a = old
    · simp [h, Ne.symm hne]
      exact fun x hx => ih ∘ (by simp [List.mem_map]; exact fun h' => ⟨x, hx, h'⟩)
    · simp [h]
      constructor
      · exact Ne.symm h
      · intro x hx h'
        have := ih
        simp [List.mem_map] at this
        exact this x hx h'

theorem linkedTo_rewriteRefs_new (cs : Contents) (old new : String)
    (hfresh : ∀ p ∈ cs, new ∉ p.2.categories) :
    linkedTo (rewriteRefs old new cs) new = linkedTo cs old := by
  induction cs with
  | nil => rfl
  | cons p t ih =>
    have hp : new ∉ p.2.categories := hfresh p (List.mem_cons_self p t)
    have ht : ∀ q ∈ t, new ∉ q.2.categories := fun q hq => hfresh q (List.mem_cons_of_mem _ hq)
    by_cases h : old ∈ p.2.categories
    · simp [linkedTo, rewriteRefs, List.filter, (new_mem_map_rewrite hp).mpr h, h]
      simpa [linkedTo, rewriteRefs] using ih ht
    · have : new ∉ p.2.categories.map (fun c => if c = old then new else c) :=
        fun hx => h ((new_mem_map_rewrite hp).mp hx)
      simp [linkedTo, rewriteRefs, List.filter, this, h]
      simpa [linkedTo, rewriteRefs] using ih ht

theorem linkedTo_rewriteRefs_old (cs : Contents) (old new : String) (hne : new ≠ old) :
    linkedTo (rewriteRefs old new cs) old = [] := by
  induction cs with
  | nil => rfl
  | cons p t ih =>
    simp [linkedTo, rewriteRefs, List.filter, old_not_mem_map_rewrite hne]
    simpa [linkedTo, rewriteRefs] using ih

/-- C3 counterexample: `TreeEditor._rename_node` renames `Home` to `Front`
in the category store but never rewrites content references — afterwards
`news` still references `Home` and nothing references `Front`, the opposite
of the claimed rewrite. -/
theorem rename_tui_leaves_content_refs :
    linkedTo (renameTui ⟨[("Home", ⟨"Home", none, 0⟩)],
        [("news", ⟨"news", ["Home"], false⟩)]⟩ "Home" "Front").contents "Home" = ["news"] ∧
    linkedTo (renameTui ⟨[("Home", ⟨"Home", none, 0⟩)],
        [("news", ⟨"news", ["Home"], false⟩)]⟩ "Home" "Front").contents "Front" = [] := by
  decide

/-- C3 amended: the reference rewrite holds for the Qt `TreeGui._on_rename`
(provided the new name is not already referenced): afterwards the items
linked to `new` are exactly those previously linked to `old`, and no item
references `old`.  The prompt_toolkit `TreeEditor` renames
(`_rename_node` / `_enter`) leave all content references pointing at the
old name (see the counterexample). -/
theorem rename_gui_rewrites_content_refs (st : EdState) (old new : String)
    (hnil : new ≠ "") (hne : new ≠ old)
    (hfresh : ∀ p ∈ st.contents, new ∉ p.2.categories) :
    linkedTo (renameGui st old new).contents new = linkedTo st.contents old ∧
    linkedTo (renameGui st old new).contents old = [] := by
  have hguard : (new ≠ "" ∧ new ≠ old) := ⟨hnil, hne⟩
  simp only [renameGui, if_pos hguard]
  exact ⟨linkedTo_rewriteRefs_new st.contents old new hfresh,
    linkedTo_rewriteRefs_old st.contents old new hne⟩

/-- C3 witness: the amended theorem at the spec's own scenario — `news`
linked to `Home`, renamed to `Front`. -/
theorem rename_gui_rewrites_content_refs_witness :
    linkedTo (renameGui ⟨[("Home", ⟨"Home", none, 0⟩)],
        [("news", ⟨"news", ["Home"], false⟩)]⟩ "Home" "Front").contents "Front"
      = linkedTo [("news", ⟨"news", ["Home"], false⟩)] "Home" ∧
    linkedTo (renameGui ⟨[("Home", ⟨"Home", none, 0⟩)],
        [("news", ⟨"news", ["Home"], false⟩)]⟩ "Home" "Front").contents "Home" = [] :=
  rename_gui_rewrites_content_refs
    ⟨[("Home", ⟨"Home", none, 0⟩)], [("news", ⟨"news", ["Home"], false⟩)]⟩
    "Home" "Front" (by decide) (by decide) (by decide)

/-! ## C4 — deleting a category with children -/

/-- C4 counterexample: the Tkinter `TreeGui._on_delete` (`cms/tree_gui.py`)
removes the category and promotes its children but never touches the
contents dict — `office_hours` still references the deleted `Home`. -/
theorem delete_tk_keeps_content_reference :
    (deleteTk [("Home", ⟨"Home", none⟩), ("Staff", ⟨"Staff", some "Home"⟩)]
        [("office_hours", ⟨"office_hours", "office_info", "Home", "update"⟩)] "Home").1
      = [("Staff", ⟨"Staff", none⟩)] ∧
    (deleteTk [("Home", ⟨"Home", none⟩), ("Staff", ⟨"Staff", some "Home"⟩)]
        [("office_hours", ⟨"office_hours", "office_info", "Home", "update"⟩)] "Home").2
      = [("office_hours", ⟨"office_hours", "office_info", "Home", "update"⟩)] := by
  decide

/-- C4 amended: in the Qt `TreeGui._on_delete` both halves of the claim
hold — every remaining category whose parent was the deleted name is
promoted to root (all others unchanged), the deleted key is gone, and no
content item retains a reference to the deleted name.  The Tkinter variant
promotes children but leaves content references in place (see the
counterexample). -/
theorem delete_gui_promotes_children_and_drops_refs (st : EdState) (name : String)
    (hmem : (dlookup name st.cats).isSome) :
    (∀ n c, dlookup n st.cats = some c → n ≠ name →
      dlookup n (deleteGui st name).cats = some (promoteOne name c)) ∧
    dlookup name (deleteGui st name).cats = none ∧
    (∀ p ∈ (deleteGui st name).contents, name ∉ p.2.categories) := by
  simp only [deleteGui, if_pos hmem]
  refine ⟨?_, ?_, ?_⟩
  · intro n c hc hnn
    rw [dlookup_map_snd, dlookup_eraseKey_ne name n _ (Ne.symm hnn), hc]
    rfl
  · rw [dlookup_map_snd, dlookup_eraseKey_self]
    rfl
  · intro p hp
    simp only [List.mem_map] at hp
    obtain ⟨q, _, hq⟩ := hp
    subst hq
    simp [List.mem_filter]

/-- C4 witness: the amended theorem on a store where `Home` has child
`Staff` and `office_hours` references `Home`. -/
theorem delete_gui_promotes_children_and_drops_refs_witness :
    (∀ n c,
      dlookup n ([("Home", ⟨"Home", none, 0⟩), ("Staff", ⟨"Staff", some "Home", 0⟩)] : Store)
          = some c → n ≠ "Home" →
      dlookup n (deleteGui ⟨[("Home", ⟨"Home", none, 0⟩), ("Staff", ⟨"Staff", some "Home", 0⟩)],
          [("office_hours", ⟨"office_hours", ["Home"], false⟩)]⟩ "Home").cats
        = some (promoteOne "Home" c)) ∧
    dlookup "Home" (deleteGui ⟨[("Home", ⟨"Home", none, 0⟩), ("Staff", ⟨"Staff", some "Home", 0⟩)],
        [("office_hours", ⟨"office_hours", ["Home"], false⟩)]⟩ "Home").cats = none ∧
    (∀ p ∈ (deleteGui ⟨[("Home", ⟨"Home", none, 0⟩), ("Staff", ⟨"Staff", some "Home", 0⟩)],
        [("office_hours", ⟨"office_hours", ["Home"], false⟩)]⟩ "Home").contents,
      "Home" ∉ p.2.categories) :=
  delete_gui_promotes_children_and_drops_refs
    ⟨[("Home", ⟨"Home", none, 0⟩), ("Staff", ⟨"Staff", some "Home", 0⟩)],
      [("office_hours", ⟨"office_hours", ["Home"], false⟩)]⟩ "Home" (by decide)

/-! ## C5 — drag reorder -/

/-- C5 counterexample: with siblings `X` (order position 0) and `Y`
(position 1) under `P`, releasing a drag of `X` on `Y`'s row leaves
`childrenOf(P) = [X, Y]` — not the claimed `[Y, X]`.  The code pops `X`,
decrements the destination index because it lies past the source, and
re-inserts `X` before `Y`'s new position, so a one-step downward drag is a
no-op. -/
theorem drag_onto_next_sibling_is_noop :
    dlookup (some "P")
        (dragEnd ⟨[("P", ⟨"P", none⟩), ("X", ⟨"X", some "P"⟩), ("Y", ⟨"Y", some "P"⟩)],
            [(some "P", ["X", "Y"]), (none, ["P"])]⟩
          false (some "P") (some "P") "X" "Y").order
      = some ["X", "Y"] ∧
    ¬ dlookup (some "P")
        (dragEnd ⟨[("P", ⟨"P", none⟩), ("X", ⟨"X", some "P"⟩), ("Y", ⟨"Y", some "P"⟩)],
            [(some "P", ["X", "Y"]), (none, ["P"])]⟩
          false (some "P") (some "P") "X" "Y").order
      = some ["Y", "X"] := by
  decide

/-- C5 amended: releasing a drag of `X` on `Y`'s position re-inserts `X`
before `Y`'s post-removal position, so `childrenOf(P)` stays `[X, Y]`
(dragging `Y` onto `X` does yield `[Y, X]`); a release on a row under a
different parent is a complete no-op, and no drag release ever changes any
category's `parent`. -/
theorem drag_reorder_semantics (st : CmsEditor) (pF pT : Option String) (a b : String)
    (hne : pF ≠ pT) :
    dragEnd st false pF pT a b = st ∧
    (∀ st' sr pF' pT' a' b', (dragEnd st' sr pF' pT' a' b').categories = st'.categories) ∧
    dlookup (some "P")
        (dragEnd ⟨[("P", ⟨"P", none⟩), ("X", ⟨"X", some "P"⟩), ("Y", ⟨"Y", some "P"⟩)],
            [(some "P", ["X", "Y"]), (none, ["P"])]⟩
          false (some "P") (some "P") "X" "Y").order = some ["X", "Y"] ∧
    dlookup (some "P")
        (dragEnd ⟨[("P", ⟨"P", none⟩), ("X", ⟨"X", some "P"⟩), ("Y", ⟨"Y", some "P"⟩)],
            [(some "P", ["X", "Y"]), (none, ["P"])]⟩
          false (some "P") (some "P") "Y" "X").order = some ["Y", "X"] := by
  refine ⟨?_, ?_, by decide, by decide⟩
  · simp [dragEnd, hne]
  · intro st' sr pF' pT' a' b'
    unfold dragEnd
    by_cases hsr : sr = true
    · simp [hsr]
    · simp only [Bool.not_eq_true] at hsr
      subst hsr
      simp only [Bool.false_eq_true, if_false]
      by_cases hp : pF' = pT'
      · simp only [hp, if_pos rfl]
        cases dlookup pT' st'.order <;> rfl
      · simp [hp]

/-- C5 witness: the amended theorem with a concrete cross-parent release. -/
theorem drag_reorder_semantics_witness :
    dragEnd ⟨[("P", ⟨"P", none⟩), ("X", ⟨"X", some "P"⟩), ("Y", ⟨"Y", some "P"⟩)],
        [(some "P", ["X", "Y"]), (none, ["P"])]⟩ false (some "P") none "X" "P"
      = ⟨[("P", ⟨"P", none⟩), ("X", ⟨"X", some "P"⟩), ("Y", ⟨"Y", some "P"⟩)],
        [(some "P", ["X", "Y"]), (none, ["P"])]⟩ ∧
    (∀ st' sr pF' pT' a' b', (dragEnd st' sr pF' pT' a' b').categories = st'.categories) :=
  let thm := drag_reorder_semantics
    ⟨[("P", ⟨"P", none⟩), ("X", ⟨"X", some "P"⟩), ("Y", ⟨"Y", some "P"⟩)],
        [(some "P", ["X", "Y"]), (none, ["P"])]⟩
    (some "P") none "X" "P" (by decide)
  ⟨thm.1, thm.2.1⟩

/-! ## C8 — Up/Down navigation -/

/-- C8 counterexample: in `interactive_tree_edit` (`cms/data.py`) the
bindings compute `(index ± 1) % len(tree)` — on a two-row tree, `Up` at the
first row wraps to the last row and `Down` at the last row wraps to the
first, instead of the claimed clamping. -/
theorem up_wraps_in_cms_editor :
    upCms 0 2 = 1 ∧ ¬ upCms 0 2 = 0 ∧ downCms 1 2 = 0 ∧ ¬ downCms 1 2 = 1 := by
  decide

/-- C8 amended: the `TreeEditor` bindings (`tree_ui.py`) satisfy the claim —
`Up`/`Down` move the selection by exactly ±1 clamped to
`[0, len(rows)-1]` with no wrap-around, and both are no-ops on an empty
tree; the `interactive_tree_edit` bindings (`cms/data.py`) instead wrap
around modulo the row count (and are no-ops on an empty tree). -/
theorem navigation_clamps_in_tree_editor (sel total : Nat) (idx : Int) :
    (0 < sel → upTui sel = sel - 1) ∧
    upTui 0 = 0 ∧
    (sel + 1 < total → downTui sel total = sel + 1) ∧
    (total ≤ sel + 1 → downTui sel total = sel) ∧
    downTui sel 0 = sel ∧
    upCms idx 0 = idx ∧ downCms idx 0 = idx ∧
    (∀ n : Nat, n ≠ 0 → upCms 0 n = (n : Int) - 1) := by
  refine ⟨?_, rfl, ?_, ?_, ?_, ?_, ?_, ?_⟩
  · intro h; simp [upTui, h]
  · intro h; simp [downTui, h]
  · intro h; simp [downTui, Nat.not_lt.mpr h]
  · simp [downTui]
  · simp [upCms]
  · simp [downCms]
  · intro n hn
    have hpos : (0 : Int) < (n : Int) := by
      exact_mod_cast Nat.pos_of_ne_zero hn
    simp only [upCms, hn, ne_eq, not_false_iff, if_true, zero_sub]
    have h1 : (-1 : Int) = ((n : Int) - 1) + (n : Int) * (-1) := by ring
    rw [h1, Int.add_mul_emod_self_left]
    exact Int.emod_eq_of_lt (by omega) (by omega)

/-- C8 witness: the amended theorem instantiated on a three-row tree with
the selection on the middle row. -/
theorem navigation_clamps_in_tree_editor_witness :
    (0 < 1 → upTui 1 = 0) ∧
    upTui 0 = 0 ∧
    (1 + 1 < 3 → downTui 1 3 = 1 + 1) ∧
    (3 ≤ 1 + 1 → downTui 1 3 = 1) ∧
    downTui 1 0 = 1 ∧
    upCms 4 0 = 4 ∧ downCms 4 0 = 4 ∧
    (∀ n : Nat, n ≠ 0 → upCms 0 n = (n : Int) - 1) :=
  navigation_clamps_in_tree_editor 1 3 4

/-! ## C9 — content-edit commit validation -/

/-- C9 counterexample: the `TreeEditor._enter` content commit
(`tree_ui.py`) performs no validation against the category store — with the
seed categories loaded, committing `news` with category list `Nowhere`
creates the item referencing the unknown category and reports nothing. -/
theorem content_commit_tui_accepts_unknown_category :
    commitContentTui [] "news" "news" "Nowhere" "false"
      = [("news", ⟨"news", ["Nowhere"], false⟩)] ∧
    dlookup "Nowhere" seedCategories = none := by
  constructor
  · rfl
  · decide

/-- C9 amended: the Qt `TreeGui._on_content_edit` does reject the whole
commit when any listed category is unknown and modifies nothing — but the
rejection is a bare `return` with no error of any kind (no `UnknownCategory`
report), and the prompt_toolkit `TreeEditor` commit performs no validation
at all (see the counterexample). -/
theorem content_commit_gui_rejects_unknown_silently (cats : Store) (contents : Contents)
    (old name catsStr archStr : String)
    (c : String) (hc : c ∈ parseCats catsStr) (hunk : dlookup c cats = none) :
    commitContentGui cats contents old name catsStr archStr = none := by
  unfold commitContentGui
  by_cases hname : name = ""
  · simp [hname]
  · have hall : (parseCats catsStr).all (fun c => (dlookup c cats).isSome) = false := by
      rw [List.all_eq_false]
      exact ⟨c, hc, by simp [hunk]⟩
    simp [hname, hall]

/-- C9 witness: the amended theorem at a concrete rejected commit. -/
theorem content_commit_gui_rejects_unknown_silently_witness :
    commitContentGui seedCategories seedContents "news" "news" "Nowhere" "false" = none :=
  content_commit_gui_rejects_unknown_silently seedCategories seedContents
    "news" "news" "Nowhere" "false" "Nowhere" (by decide) (by decide)

/-! ## C7 — flatten determinism -/

/-- C7: `flatten` is a pure function of the store and the expanded set —
its output depends only on which names are expanded, so two calls with no
intervening mutation (in particular with literally the same expanded set)
produce identical rows in identical order with identical text. -/
theorem flatten_deterministic (s : Store) (e₁ e₂ : List String)
    (h : ∀ n, n ∈ e₁ ↔ n ∈ e₂) : flatten s e₁ = flatten s e₂ := by
  have key : ∀ fuel parent pre,
      flattenAux s e₁ fuel parent pre = flattenAux s e₂ fuel parent pre := by
    intro fuel
    induction fuel with
    | zero => intro parent pre; rfl
    | succ n ih =>
      intro parent pre
      unfold flattenAux
      refine congrArg _ (funext fun name => ?_)
      by_cases hm : name ∈ e₁
      · have hm₂ : name ∈ e₂ := (h name).mp hm
        simp [hm, hm₂, ih]
      · have hm₂ : name ∉ e₂ := fun hx => hm ((h name).mpr hx)
        simp [hm, hm₂]
  simpa [flatten] using key (s.length + 1) none ""

/-- C7 witness: two renders of the seed store with the same expanded set
(given twice in different but membership-equal representations) coincide. -/
theorem flatten_deterministic_witness :
    flatten seedCategories ["About"] = flatten seedCategories ["About", "About"] :=
  flatten_deterministic seedCategories ["About"] ["About", "About"]
    (fun n => by constructor <;> intro hx <;> simp_all)

/-! ## C1 — reparenting and acyclicity -/

theorem reaches_inv {pf : String → Option String} {a b : String}
    (h : Reaches pf a b) : ∃ p, pf a = some p := by
  cases h with
  | step h => exact ⟨_, h⟩
  | trans h _ => exact ⟨_, h⟩

theorem reaches_trans {pf : String → Option String} {a b c : String}
    (h1 : Reaches pf a b) (h2 : Reaches pf b c) : Reaches pf a c := by
  induction h1 with
  | step h => exact Reaches.trans h h2
  | trans h _ ih => exact Reaches.trans h (ih h2)

theorem reaches_updFn_to_x {pf : String → Option String} {x y : String} :
    ∀ a b, Reaches (updFn pf x y) a b → b = x → a ≠ x → Reaches pf a x := by
  intro a b h
  induction h with
  | @step a' b' h =>
    intro hbx hax
    have ha : pf a' = some b' := by simpa [updFn, hax] using h
    rw [hbx] at ha
    exact Reaches.step ha
  | @trans a' b' c' h h2 ih =>
    intro hcx hax
    have ha : pf a' = some b' := by simpa [updFn, hax] using h
    by_cases hbx : b' = x
    · rw [hbx] at ha
      exact Reaches.step ha
    · exact Reaches.trans ha (ih hcx hbx)

theorem reaches_updFn_split {pf : String → Option String} {x y : String} :
    ∀ a b, Reaches (updFn pf x y) a b →
      Reaches pf a b ∨
        ((a = x ∨ Reaches pf a x) ∧ (b = y ∨ Reaches (updFn pf x y) y b)) := by
  intro a b h
  induction h with
  | @step a' b' h =>
    by_cases hax : a' = x
    · have hb : y = b' := by simpa [updFn, hax] using h
      exact Or.inr ⟨Or.inl hax, Or.inl hb.symm⟩
    · exact Or.inl (Reaches.step (by simpa [updFn, hax] using h))
  | @trans a' b' c' h h2 ih =>
    by_cases hax : a' = x
    · have hb : y = b' := by simpa [updFn, hax] using h
      rw [← hb] at h2
      exact Or.inr ⟨Or.inl hax, Or.inr h2⟩
    · have ha : pf a' = some b' := by simpa [updFn, hax] using h
      cases ih with
      | inl hr => exact Or.inl (Reaches.trans ha hr)
      | inr hr =>
        obtain ⟨hb, hyc⟩ := hr
        refine Or.inr ⟨Or.inr ?_, hyc⟩
        cases hb with
        | inl he =>
          rw [he] at ha
          exact Reaches.step ha
        | inr hrx => exact Reaches.trans ha hrx

/-- Updating one node's parent to a target that is neither the node itself
nor one of its descendants preserves acyclicity of the whole parent
assignment. -/
theorem updFn_preserves_acyclic (pf : String → Option String) (x y : String)
    (hacy : ∀ n, ¬ Reaches pf n n) (hyx : y ≠ x) (hdesc : ¬ Reaches pf y x) :
    ∀ n, ¬ Reaches (updFn pf x y) n n := by
  intro n hn
  rcases reaches_updFn_split n n hn with hr | ⟨h1, h2⟩
  · exact hacy n hr
  · cases h1 with
    | inl hnx =>
      cases h2 with
      | inl hny =>
        have : y = x := hny ▸ hnx
        exact hyx this
      | inr hyn =>
        rw [hnx] at hyn
        exact hdesc (reaches_updFn_to_x y x hyn rfl hyx)
    | inr hnx =>
      cases h2 with
      | inl hny => exact hdesc (hny ▸ hnx)
      | inr hyn =>
        rcases reaches_updFn_split y n hyn with hr' | ⟨h1', _⟩
        · exact hdesc (reaches_trans hr' hnx)
        · cases h1' with
          | inl hyx' => exact hyx hyx'
          | inr hyx' => exact hdesc hyx'

theorem dlookup_setParent (s : Store) (x n : String) (par : Option String) :
    dlookup n (setParent s x par)
      = (dlookup n s).map (fun c => if n = x then { c with parent := par } else c) := by
  induction s with
  | nil => rfl
  | cons p t ih =>
    obtain ⟨k, c⟩ := p
    simp only [setParent, List.map_cons] at ih ⊢
    by_cases hk : k = x <;> by_cases hn : k = n
    · have hnx : n = x := hn ▸ hk
      simp [hk, hn, hnx]
    · have hxn : ¬ x = n := fun hx => hn (hk.trans hx)
      simp [hk, hn, hxn, ih]
    · have hnx : ¬ n = x := fun hx => hk (hn.trans hx)
      simp [hk, hn, hnx]
    · simp [hk, hn, ih]

/-- C1 counterexample: `interactive_tree_edit.change_parent`
(`cms/data.py`) applies whatever parent the user types with no check —
`change_parent("A", "A")` succeeds (no `WouldCreateCycle` / `SelfParent`
failure exists in this code) and afterwards `A` is its own ancestor, so
the parent relation is no longer acyclic. -/
theorem change_parent_self_parent_creates_cycle :
    Reaches (parentOfCms (change_parent [("A", ⟨"A", none⟩)] "A" (some "A"))) "A" "A" :=
  Reaches.step (by decide)

/-- C1 amended: `TreeEditor._change_parent` (`tree_ui.py`) never reports a
`WouldCreateCycle` failure; instead it excludes the selected node and all
of its descendants from the choice dialog, so the chosen target `y` always
satisfies `y ≠ x` and `y` not a descendant of `x` — and committing
`categories[x].parent = y` under those conditions keeps every category off
its own ancestor chain.  `interactive_tree_edit.change_parent`
(`cms/data.py`) performs no such exclusion and can create a cycle (see the
counterexample). -/
theorem reparent_excluded_target_preserves_acyclicity (s : Store) (x y : String)
    (hx : (dlookup x s).isSome)
    (hacy : ∀ n, ¬ Reaches (parentOf s) n n)
    (hyx : y ≠ x) (hdesc : ¬ Reaches (parentOf s) y x) :
    ∀ n, ¬ Reaches (parentOf (setParent s x (some y))) n n := by
  have hfun : parentOf (setParent s x (some y)) = updFn (parentOf s) x y := by
    funext n
    rw [parentOf, dlookup_setParent]
    by_cases hn : n = x
    · obtain ⟨c, hc⟩ := Option.isSome_iff_exists.mp hx
      rw [hn, hc]
      simp [updFn]
    · simp only [updFn, if_neg hn]
      cases hl : dlookup n s <;> simp [parentOf, hl, hn]
  rw [hfun]
  exact updFn_preserves_acyclic (parentOf s) x y hacy hyx hdesc

/-- C1 witness: the preservation theorem applied to a one-category store,
reparenting `A` under a fresh name, evaluated at the node `A` itself. -/
theorem reparent_excluded_target_preserves_acyclicity_witness :
    ¬ Reaches (parentOf (setParent [("A", ⟨"A", none, 0⟩)] "A" (some "B"))) "A" "A" := by
  have hnone : ∀ n, parentOf ([("A", ⟨"A", none, 0⟩)] : Store) n = none := by
    intro n
    by_cases h : "A" = n <;> simp [parentOf, h]
  have hno : ∀ a b, ¬ Reaches (parentOf ([("A", ⟨"A", none, 0⟩)] : Store)) a b := by
    intro a b h
    obtain ⟨p, hp⟩ := reaches_inv h
    rw [hnone] at hp
    cases hp
  exact reparent_excluded_target_preserves_acyclicity [("A", ⟨"A", none, 0⟩)] "A" "B"
    (by decide) (fun n => hno n n) (by decide) (hno "B" "A") "A"

/-! ## C6 — rename round-trip -/

theorem rpOne_back {a b : String} {c : Category} (hc : c.parent ≠ some b) :
    rpOne b a (rpOne a b c) = c := by
  obtain ⟨cn, cp, cs⟩ := c
  simp only [rpOne] at hc ⊢
  by_cases hcp : cp = some a
  · simp [hcp]
  · simp only [hcp, if_false]
    simp at hc
    simp [hc]

theorem refs_back {l : List String} {a b : String} (hb : b ∉ l) :
    (l.map (fun c => if c = a then b else c)).map (fun c => if c = b then a else c) = l := by
  induction l with
  | nil => rfl
  | cons x t ih =>
    have hx : x ≠ b := fun h => hb (h ▸ List.mem_cons_self x t)
    have ht : b ∉ t := fun h => hb (List.mem_cons_of_mem _ h)
    by_cases hxa : x = a
    · simp [hxa, ih ht]
    · simp [hxa, hx, ih ht]

theorem rewriteRefs_back (cs : Contents) (a b : String)
    (href : ∀ p ∈ cs, b ∉ p.2.categories) :
    rewriteRefs b a (rewriteRefs a b cs) = cs := by
  induction cs with
  | nil => rfl
  | cons p t ih =>
    obtain ⟨k, art⟩ := p
    obtain ⟨an, acats, aarch⟩ := art
    have hp : b ∉ acats := href (k, ⟨an, acats, aarch⟩) (List.mem_cons_self _ _)
    have ht : ∀ q ∈ t, b ∉ q.2.categories := fun q hq => href q (List.mem_cons_of_mem _ hq)
    simp only [rewriteRefs, List.map_cons] at ih ⊢
    simp [refs_back hp, ih ht]

/-- C6 counterexample: on a store holding `a` and a category `c` whose
`parent` is the dangling name `b` (reachable in real runs: the
prompt_toolkit menu delete pops a category without resetting its children's
parents, and the content editor accepts arbitrary category strings),
`rename("a","b")` followed by `rename("b","a")` does not restore the prior
state — the second rename's parent-rewrite grabs `c`'s pre-existing
`parent = "b"` and turns it into `"a"`. -/
theorem rename_roundtrip_fails_on_dangling_parent :
    renameGui (renameGui ⟨[("a", ⟨"a", none, 0⟩), ("c", ⟨"c", some "b", 0⟩)], []⟩ "a" "b")
        "b" "a"
      ≠ ⟨[("a", ⟨"a", none, 0⟩), ("c", ⟨"c", some "b", 0⟩)], []⟩ ∧
    dlookup "c"
        (renameGui (renameGui ⟨[("a", ⟨"a", none, 0⟩), ("c", ⟨"c", some "b", 0⟩)], []⟩ "a" "b")
          "b" "a").cats
      = some ⟨"c", some "a", 0⟩ := by
  decide

/-- C6 amended: `rename(a, b)` followed by `rename(b, a)` (through
`TreeGui._on_rename`) restores the category store (as a key → value map)
and the content references exactly, provided the intermediate name `b` is
genuinely fresh beforehand: not a category key, not any category's
`parent`, and not referenced by any content item.  If `b` already occurs as
a dangling parent or reference the round-trip fails (see the
counterexample). -/
theorem rename_roundtrip_restores_clean_state (st : EdState) (a b : String) (ca : Category)
    (ha : dlookup a st.cats = some ca) (hname : ca.name = a)
    (hb : dlookup b st.cats = none)
    (ha0 : a ≠ "") (hb0 : b ≠ "") (hab : a ≠ b)
    (hpar : ∀ p ∈ st.cats, p.2.parent ≠ some b)
    (href : ∀ p ∈ st.contents, b ∉ p.2.categories) :
    (∀ n, dlookup n (renameGui (renameGui st a b) b a).cats = dlookup n st.cats) ∧
    (renameGui (renameGui st a b) b a).contents = st.contents := by
  have hg1 : (b ≠ "" ∧ b ≠ a) := ⟨hb0, Ne.symm hab⟩
  have hg2 : (a ≠ "" ∧ a ≠ b) := ⟨ha0, hab⟩
  have e1 : renameGui st a b
      = ⟨renameStore st.cats a b, rewriteRefs a b st.contents⟩ := by
    simp [renameGui, hg1]
  have hcats1 : renameStore st.cats a b
      = rewriteParents a b (dinsert b { ca with name := b } (eraseKey a st.cats)) := by
    rw [renameStore, ha]
  have hlook1 : dlookup b (renameStore st.cats a b)
      = some (rpOne a b { ca with name := b }) := by
    rw [hcats1, dlookup_rewriteParents, dlookup_dinsert_self]
    rfl
  have hcats2 : renameStore (renameStore st.cats a b) b a
      = rewriteParents b a
          (dinsert a { rpOne a b { ca with name := b } with name := a }
            (eraseKey b (renameStore st.cats a b))) := by
    rw [renameStore, hlook1]
  have e2 : renameGui ⟨renameStore st.cats a b, rewriteRefs a b st.contents⟩ b a
      = ⟨renameStore (renameStore st.cats a b) b a,
          rewriteRefs b a (rewriteRefs a b st.contents)⟩ := by
    simp [renameGui, hg2]
  rw [e1, e2]
  constructor
  · intro n
    show dlookup n (renameStore (renameStore st.cats a b) b a) = dlookup n st.cats
    by_cases hnb : n = b
    · rw [hnb, hcats2, dlookup_rewriteParents, dlookup_dinsert_ne a b _ _ hab,
        dlookup_eraseKey_self, hb]
      rfl
    · by_cases hna : n = a
      · have hpa : ca.parent ≠ some b := hpar (a, ca) (dlookup_some_mem ha)
        rw [hna, hcats2, dlookup_rewriteParents, dlookup_dinsert_self, ha]
        obtain ⟨can, cap, cas⟩ := ca
        simp only at hname hpa
        by_cases hcp : cap = some a
        · simp [rpOne, hcp, hname]
        · simp [rpOne, hcp, hpa, hname]
      · have han : a ≠ n := fun h => hna h.symm
        have hbn : b ≠ n := fun h => hnb h.symm
        rw [hcats2, dlookup_rewriteParents, dlookup_dinsert_ne a n _ _ han,
          dlookup_eraseKey_ne b n _ hbn, hcats1, dlookup_rewriteParents,
          dlookup_dinsert_ne b n _ _ hbn, dlookup_eraseKey_ne a n _ han]
        cases hl : dlookup n st.cats with
        | none => rfl
        | some c =>
          have hc : c.parent ≠ some b := hpar (n, c) (dlookup_some_mem hl)
          simp [rpOne_back hc]
  · show rewriteRefs b a (rewriteRefs a b st.contents) = st.contents
    exact rewriteRefs_back st.contents a b href

/-- C6 witness: the round-trip theorem on a clean one-category store with
one linked content item. -/
theorem rename_roundtrip_restores_clean_state_witness :
    (∀ n,
      dlookup n (renameGui (renameGui ⟨[("a", ⟨"a", none, 0⟩)],
          [("news", ⟨"news", ["a"], false⟩)]⟩ "a" "b") "b" "a").cats
        = dlookup n ([("a", ⟨"a", none, 0⟩)] : Store)) ∧
    (renameGui (renameGui ⟨[("a", ⟨"a", none, 0⟩)],
        [("news", ⟨"news", ["a"], false⟩)]⟩ "a" "b") "b" "a").contents
      = [("news", ⟨"news", ["a"], false⟩)] :=
  rename_roundtrip_restores_clean_state
    ⟨[("a", ⟨"a", none, 0⟩)], [("news", ⟨"news", ["a"], false⟩)]⟩ "a" "b" ⟨"a", none, 0⟩
    (by decide) rfl (by decide) (by decide) (by decide) (by decide) (by decide) (by decide)

end CmsModel
